import Mathlib

set_option maxRecDepth 100000

/-!
Verification development for the fuzzle-bot catalog maintenance engine
(`src/index.mjs`): bulk, idempotent maintenance operations against a remote
e-commerce catalog exposed through a paginated REST API.

The JavaScript source is shallowly embedded: pure string/number manipulation
becomes Lean functions on `String` / exact rationals, the paginated remote
store and its fallible PUT endpoint are modelled explicitly (they are external
collaborators, so their behaviour is modelled from the spec), and each of the
three `while (true)` traversal loops becomes a fuel-indexed recursion over the
shared skeleton `traverse`.
-/

deriving instance DecidableEq for Except

namespace FuzzleBot

/-! ## String model

The source manipulates JavaScript strings with `.trim()`, `.slice(0,160)` and
`.replace(/\s+/g," ")`.  These are modelled on `String.data` (`List Char`).
`Char.isWhitespace` (space, tab, CR, LF) stands in for the JS `\s` class; every
string the program builds only contains spaces and newlines as whitespace. -/

/-- Model of JS `String.prototype.trim`: removes leading and trailing
whitespace. -/
def jsTrim (s : String) : String :=
  String.mk ((s.data.dropWhile Char.isWhitespace).rdropWhile Char.isWhitespace)

/-- Helper for `collapseWs`: `prevWs` records whether the previous character
was part of a whitespace run already replaced by a single space. -/
def collapseWsAux : Bool → List Char → List Char
  | _, [] => []
  | prevWs, c :: cs =>
    if c.isWhitespace then
      (if prevWs then [] else [' ']) ++ collapseWsAux true cs
    else c :: collapseWsAux false cs

/-- Model of JS `.replace(/\s+/g, " ")`: every maximal run of whitespace
characters is replaced by a single space. -/
def collapseWs (s : String) : String :=
  String.mk (collapseWsAux false s.data)

/-- Model of JS `.slice(0, 160)`: the first 160 characters. -/
def jsSlice160 (s : String) : String :=
  String.mk (s.data.take 160)

/-! ## Numeric model

Prices travel as decimal strings.  `parseFloat` followed by `isFinite`
(source lines 98–99), and `Number.prototype.toFixed(2)` (line 100), are
modelled over an unnormalized rational pair `QVal` holding the exact
mathematical value of the parsed literal.  `parseFloatQ` follows the
ECMAScript `parseFloat` algorithm: skip leading StrWhiteSpace, read the
longest prefix matching `[+|-] (Infinity | digits [. digits?] [exp] |
. digits [exp])` with `exp = (e|E) [+|-] digits`, and ignore everything
after it; the result is `none` exactly when the program's guard skips the
variant — no prefix parses (`NaN`), an `Infinity` literal, or a magnitude
of at least `2^1024 − 2^970`, which rounds to ±∞ in an IEEE double. -/

/-- An exact (unnormalized) rational value `num / den`. -/
structure QVal where
  num : Int
  den : Nat
deriving DecidableEq

/-- Decimal value of a digit string. -/
def digitsVal (cs : List Char) : Nat :=
  cs.foldl (fun a c => 10 * a + (c.toNat - 48)) 0

/-- The characters `parseFloat` skips at the start of its input
(ECMAScript StrWhiteSpaceChar = WhiteSpace or LineTerminator): TAB LF VT
FF CR SP NBSP ZWNBSP, the Zs space separators, LS and PS. -/
def jsStrWhiteSpace (c : Char) : Bool :=
  c = ' ' || c = '\t' || c = '\n' || c = '\x0b' || c = '\x0c' || c = '\r' ||
    c.toNat = 0xa0 || c.toNat = 0xfeff || c.toNat = 0x1680 ||
    (0x2000 ≤ c.toNat && c.toNat ≤ 0x200a) ||
    c.toNat = 0x2028 || c.toNat = 0x2029 || c.toNat = 0x202f ||
    c.toNat = 0x205f || c.toNat = 0x3000

/-- Does the input start with the literal `Infinity`?  (`parseFloat` then
yields ±∞ and the `isFinite` guard skips the variant.) -/
def infinityAhead (cs : List Char) : Bool :=
  match cs with
  | 'I' :: 'n' :: 'f' :: 'i' :: 'n' :: 'i' :: 't' :: 'y' :: _ => true
  | _ => false

/-- The optional ExponentPart at the head of the remaining input:
`(e|E) [+|-] digits`.  `none` when it is absent or incomplete — then the
longest valid prefix of the literal stops before the `e`, which becomes
ignored trailing text. -/
def parseExpPart (cs : List Char) : Option Int :=
  match cs with
  | [] => none
  | c :: rest =>
    if c = 'e' || c = 'E' then
      match rest with
      | '+' :: r =>
        if r.takeWhile Char.isDigit = [] then none
        else some (digitsVal (r.takeWhile Char.isDigit))
      | '-' :: r =>
        if r.takeWhile Char.isDigit = [] then none
        else some (-(digitsVal (r.takeWhile Char.isDigit) : Int))
      | r =>
        if r.takeWhile Char.isDigit = [] then none
        else some (digitsVal (r.takeWhile Char.isDigit))
    else none

/-- The smallest magnitude that rounds to ±∞ in an IEEE double: half an
ulp above the largest finite double (round-to-nearest carries the midpoint
up to `2^1024`, which the spec replaces by ∞). -/
def dblOverflow : Nat := 2 ^ 1024 - 2 ^ 970

/-- The signed part of `parseFloatQ`, after the sign: the longest
StrUnsignedDecimalLiteral prefix (`Infinity`, `digits [. digits?] [exp]`
or `. digits [exp]`), everything after it ignored.  `none` when no prefix
parses or the value is not finite. -/
def parseSigned (sgn : Int) (cs : List Char) : Option QVal :=
  if infinityAhead cs then none
  else
    let ip := cs.takeWhile Char.isDigit
    let r1 := cs.dropWhile Char.isDigit
    let fp :=
      match r1 with
      | '.' :: t => t.takeWhile Char.isDigit
      | _ => []
    let r2 :=
      match r1 with
      | '.' :: t => t.dropWhile Char.isDigit
      | _ => r1
    if ip = [] ∧ fp = [] then none
    else
      let e : Int := (parseExpPart r2).getD 0
      let mant : Nat := digitsVal (ip ++ fp)
      let e10 : Int := e - fp.length
      if mant = 0 then some ⟨0, 1⟩
      else if 400 < e10 then none
      else
        let q : QVal :=
          if 0 ≤ e10 then ⟨sgn * (mant : Int) * 10 ^ e10.toNat, 1⟩
          else ⟨sgn * (mant : Int), 10 ^ (-e10).toNat⟩
        if dblOverflow * q.den ≤ q.num.natAbs then none
        else some q

/-- Model of `parseFloat(v.price)` combined with the `isFinite` check
(source lines 98–99): `some` of the exact rational value of the longest
numeric prefix, `none` exactly when the program skips the variant
(`NaN` — no parsable prefix — or ±∞, from an `Infinity` literal or double
overflow).  In the `400 < e10` branch the value is at least `10^401`,
far above `dblOverflow`, so the cheap cutoff agrees with the exact
comparison. -/
def parseFloatQ (s : String) : Option QVal :=
  match s.data.dropWhile jsStrWhiteSpace with
  | '+' :: t => parseSigned 1 t
  | '-' :: t => parseSigned (-1) t
  | t => parseSigned 1 t

/-- Exact product of two rational values. -/
def mulQ (a b : QVal) : QVal := ⟨a.num * b.num, a.den * b.den⟩

/-- Model of `const factor = 1 + (percent/100)` as an exact rational:
`1 + (n/d)/100 = (100*d + n) / (100*d)`. -/
def factorOf (percent : QVal) : QVal :=
  ⟨100 * (percent.den : Int) + percent.num, 100 * percent.den⟩

/-- Model of `(x).toFixed(2)` applied to the exact rational `q`: pick the
integer `n` with `n/100` closest to `q`, the larger `n` on a tie — exactly
the tie rule of ECMAScript `toFixed` — i.e. `n = ⌊100*q + 1/2⌋ =
⌊(200*num + den) / (2*den)⌋` via `Int.fdiv`, and print with two decimals.
JS applies `toFixed` to the double nearest the literal's value instead of
to the exact value; the two renderings agree on every input the theorems
below evaluate it at: canonical 2-decimal strings of magnitude below
`10^12` (there the nearest double sits within half an ulp ≤ 0.004 of the
grid value, so it rounds back, and `toFixed` stays in plain notation —
the domain the C3 hypothesis admits), and the concrete runs' small values,
whose double computations round identically ("10" × 1 → "10.00",
"19.99" × 1.1 → "21.99"). -/
def fmt2 (q : QVal) : String :=
  let c : Int := (200 * q.num + (q.den : Int)).fdiv (2 * (q.den : Int))
  let a := c.natAbs
  (if c < 0 then "-" else "") ++ toString (a / 100) ++ "." ++
    (if a % 100 < 10 then "0" else "") ++ toString (a % 100)

/-! ## Data model (§3 of the spec, read back from the source) -/

/-- A product variant as read from the store.  `inventory_quantity` is
nullable (`??`-coalesced to `0` in the source); `inventory_management` is the
JS truthiness of the management field. -/
structure Variant where
  id : Nat
  price : String
  inventory_quantity : Option Int
  inventory_management : Bool
deriving DecidableEq

/-- A product as read from the store.  `vendor`, `body_html` and `variants`
are nullable, matching the `||`-guards in the source. -/
structure Product where
  id : Nat
  title : String
  vendor : Option String
  body_html : Option String
  status : String
  variants : Option (List Variant)
deriving DecidableEq

/-- Model of `p.body_html || ""` (null/undefined and the empty string are
falsy, and all map to `""`). -/
def bodyOr (p : Product) : String :=
  match p.body_html with
  | none => ""
  | some s => s

/-- Model of `p.vendor || "FuzzleToys"` (null/undefined and the empty string
are falsy). -/
def vendorOr (v : Option String) : String :=
  match v with
  | none => "FuzzleToys"
  | some s => if s = "" then "FuzzleToys" else s

/-- Model of `p.variants || []`. -/
def variantsOf (p : Product) : List Variant :=
  p.variants.getD []

/-! ## buildDescription (source lines 25–43) -/

/-- `buildDescription(p)`: the fixed-structure HTML template with the title
and vendor interpolated, trimmed.  The template literal starts and ends with
a newline, removed by `.trim()`. -/
def buildDescription (p : Product) : String :=
  jsTrim ("\n<p><strong>" ++ p.title ++
    "</strong> — designed for happy, healthy pets.</p>\n<h3>Key Benefits</h3>\n<ul>\n<li>Supports healthy posture</li>\n<li>Reduces mess & choking</li>\n<li>Durable for daily use</li>\n<li>Easy to clean</li>\n</ul>\n<h3>Product Details</h3>\n<ul>\n<li>Brand: " ++
    vendorOr p.vendor ++
    "</li>\n<li>Material: Pet-safe materials</li>\n</ul>\n<h3>Shipping & Returns</h3>\n<p>Fast US shipping. 30-day hassle-free returns.</p>\n")

/-! ## Per-item decisions (Idempotence Oracle) -/

/-- The description idempotence check from source line 53–55: the product is
skipped when
`curHtml.slice(0,160).replace(/\s+/g," ") === nextHtml.slice(0,160).replace(/\s+/g," ")`
with `curHtml = (p.body_html || "").trim()` and `nextHtml = buildDescription(p)`. -/
def descSkip (p : Product) : Bool :=
  let nextHtml := buildDescription p
  let curHtml := jsTrim (bodyOr p)
  decide (collapseWs (jsSlice160 curHtml) = collapseWs (jsSlice160 nextHtml))

/-- The per-variant condition inside the `every` of source line 78:
`(v.inventory_quantity ?? 0) <= 0 && v.inventory_management`. -/
def hideVariantCond (v : Variant) : Bool :=
  decide (v.inventory_quantity.getD 0 ≤ 0) && v.inventory_management

/-- Source line 78: `(p.variants || []).every(v => ...)`. -/
def allZeroB (p : Product) : Bool :=
  (variantsOf p).all hideVariantCond

/-- Source line 79: the product is mutated when
`allZero && p.status !== "draft"`. -/
def hideNeeds (p : Product) : Bool :=
  allZeroB p && decide (p.status ≠ "draft")

/-! ## The remote store and the write client

The remote catalog API is an external collaborator; its read and write
behaviour is modelled from the spec (§4.1, §6). -/

/-- A write intent, i.e. the body/target of one `PUT` issued by the engine. -/
inductive Write where
  | putProductBody (id : Nat) (body_html : String)
  | putProductStatus (id : Nat) (status : String)
  | putVariantPrice (id : Nat) (price : String)
deriving DecidableEq

/-- Modelled from the spec: `GET /products.json?limit=L&since_id=s` — the
store returns the resources with identifier greater than the cursor, in
ascending identifier order, at most `limit` of them (§4.1, §6).  The catalog
list is kept in ascending-id order, so the page is a `filter`+`take`. -/
def page (catalog : List Product) (limit : Nat) (sinceId : Nat) : List Product :=
  (catalog.filter (fun p => decide (sinceId < p.id))).take limit

/-- The observable state of the remote write client: how many write calls
were attempted, and which writes completed successfully (in order). -/
structure Client where
  attempts : Nat
  writes : List Write
deriving DecidableEq

/-- Modelled from the spec: one `PUT` through the `shopify` helper.  The
oracle `failAt` gives the index of the write attempt that fails (non-2xx
response or transport error, source line 21 `throw`); every other attempt
succeeds.  A failed attempt raises (returns `Except.error`) and its write
does not take effect. -/
def putWrite (failAt : Option Nat) (c : Client) (w : Write) : Except Client Client :=
  if failAt = some c.attempts then Except.error { c with attempts := c.attempts + 1 }
  else Except.ok { attempts := c.attempts + 1, writes := c.writes ++ [w] }

/-! ## The shared traversal skeleton (§4.1 Page Cursor Iterator + §4.4 Batch
Runner)

All three operations share the loop
`sinceId = 0; while (true) { page = GET(limit, sinceId); if empty break;
for (p of page) { sinceId = p.id; body(p) } }`.
`traverse` is that skeleton, fuel-indexed to make the `while (true)`
recursion total: `none` means the fuel ran out (never happens for adequate
fuel — see `traverse_flat_ok`), `some` carries the JS outcome, where
`Except.error` is a raised exception aborting the run. -/

/-- Traversal bookkeeping around an operation-specific state `σ`:
the cursor, the number of page requests issued, the ids visited by the
`for` body (in order), and the operation state. -/
structure Trav (σ : Type) where
  sinceId : Nat
  pages : Nat
  visited : List Nat
  inner : σ
deriving DecidableEq

/-- The `for (const p of products)` body: sets `sinceId = p.id`, then runs
the operation step; a raised exception aborts immediately. -/
def runPage (step : σ → Product → Except σ σ) : Trav σ → List Product → Except (Trav σ) (Trav σ)
  | st, [] => Except.ok st
  | st, p :: ps =>
    let st' : Trav σ := { st with sinceId := p.id, visited := st.visited ++ [p.id] }
    match step st'.inner p with
    | Except.error s => Except.error { st' with inner := s }
    | Except.ok s => runPage step { st' with inner := s } ps

/-- The `while (true)` pagination loop (source lines 47–66, 72–84, 91–107):
request a page, stop on an empty page, otherwise run the body over the page
and continue. -/
def traverse (limit : Nat) (step : σ → Product → Except σ σ) (catalog : List Product) :
    Nat → Trav σ → Option (Except (Trav σ) (Trav σ))
  | 0, _ => none
  | fuel + 1, st =>
    let ps := page catalog limit st.sinceId
    let st' : Trav σ := { st with pages := st.pages + 1 }
    match ps with
    | [] => some (Except.ok st')
    | _ :: _ =>
      match runPage step st' ps with
      | Except.error stE => some (Except.error stE)
      | Except.ok stO => traverse limit step catalog fuel stO

/-! ## The three operations (§4.3 Mutation Planner variants) -/

/-- The aggregated Run Result (§3): `{updated}`, `{preview_count, preview}`,
`{hidden}` or `{changed}`. -/
inductive RunResult where
  | updatedRes (updated : Nat)
  | previewRes (preview_count : Nat) (preview : List (Nat × String))
  | hiddenRes (hidden : Nat)
  | changedRes (changed : Nat)
deriving DecidableEq

/-- Operation state of `updateAllDescriptions`: the write client plus the
`updated` counter and the `preview` list. -/
structure DescSt where
  client : Client
  updated : Nat
  preview : List (Nat × String)
deriving DecidableEq

/-- The loop body of `updateAllDescriptions` (source lines 51–64): skip when
the idempotence check matches; otherwise `PUT` the new body and count (apply
mode) or record `{id, title}` (dry-run mode). -/
def descStep (failAt : Option Nat) (apply : Bool) (s : DescSt) (p : Product) : Except DescSt DescSt :=
  if descSkip p then Except.ok s
  else if apply then
    match putWrite failAt s.client (Write.putProductBody p.id (buildDescription p)) with
    | Except.error c => Except.error { s with client := c }
    | Except.ok c => Except.ok { s with client := c, updated := s.updated + 1 }
  else Except.ok { s with preview := s.preview ++ [(p.id, p.title)] }

/-- `updateAllDescriptions({apply})` (source lines 45–68): traverse with page
size 250, then `return apply ? { updated } : { preview_count, preview }`.
An aborted run (`Except.error`) carries no `RunResult`. -/
def updateAllDescriptions (failAt : Option Nat) (catalog : List Product) (apply : Bool)
    (fuel : Nat) : Option (Except (Trav DescSt) (RunResult × Trav DescSt)) :=
  match traverse 250 (descStep failAt apply) catalog fuel ⟨0, 0, [], ⟨⟨0, []⟩, 0, []⟩⟩ with
  | none => none
  | some (Except.error st) => some (Except.error st)
  | some (Except.ok st) =>
    some (Except.ok
      (if apply then RunResult.updatedRes st.inner.updated
       else RunResult.previewRes st.inner.preview.length st.inner.preview, st))

/-- Operation state of `hideOutOfStock`: the write client plus the `hidden`
counter. -/
structure HideSt where
  client : Client
  hidden : Nat
deriving DecidableEq

/-- The loop body of `hideOutOfStock` (source lines 76–83): when
`allZero && p.status !== "draft"`, `PUT` status `"draft"` and count. -/
def hideStep (failAt : Option Nat) (s : HideSt) (p : Product) : Except HideSt HideSt :=
  if hideNeeds p then
    match putWrite failAt s.client (Write.putProductStatus p.id "draft") with
    | Except.error c => Except.error { s with client := c }
    | Except.ok c => Except.ok { s with client := c, hidden := s.hidden + 1 }
  else Except.ok s

/-- `hideOutOfStock()` (source lines 70–86): traverse with page size 250,
then `return { hidden }`. -/
def hideOutOfStock (failAt : Option Nat) (catalog : List Product) (fuel : Nat) :
    Option (Except (Trav HideSt) (RunResult × Trav HideSt)) :=
  match traverse 250 (hideStep failAt) catalog fuel ⟨0, 0, [], ⟨⟨0, []⟩, 0⟩⟩ with
  | none => none
  | some (Except.error st) => some (Except.error st)
  | some (Except.ok st) => some (Except.ok (RunResult.hiddenRes st.inner.hidden, st))

/-- Operation state of `simpleReprice`: the write client plus the `changed`
counter. -/
structure RepSt where
  client : Client
  changed : Nat
deriving DecidableEq

/-- The inner variant loop of `simpleReprice` (source lines 97–105): a price
that does not parse to a finite number is skipped (`continue`); otherwise the
new price is written exactly when it differs textually from the stored one. -/
def repriceVariants (failAt : Option Nat) (factor : QVal) (s : RepSt) :
    List Variant → Except RepSt RepSt
  | [] => Except.ok s
  | v :: vs =>
    match parseFloatQ v.price with
    | none => repriceVariants failAt factor s vs
    | some price =>
      let newPrice := fmt2 (mulQ price factor)
      if newPrice ≠ v.price then
        match putWrite failAt s.client (Write.putVariantPrice v.id newPrice) with
        | Except.error c => Except.error { s with client := c }
        | Except.ok c => repriceVariants failAt factor { s with client := c, changed := s.changed + 1 } vs
      else repriceVariants failAt factor s vs

/-- The loop body of `simpleReprice` over one product (source lines 95–106). -/
def repriceStep (failAt : Option Nat) (factor : QVal) (s : RepSt) (p : Product) :
    Except RepSt RepSt :=
  repriceVariants failAt factor s (variantsOf p)

/-- `simpleReprice({percent})` (source lines 88–109): traverse with page size
100 and `factor = 1 + percent/100`, then `return { changed }`. -/
def simpleReprice (failAt : Option Nat) (catalog : List Product) (percent : QVal)
    (fuel : Nat) : Option (Except (Trav RepSt) (RunResult × Trav RepSt)) :=
  match traverse 100 (repriceStep failAt (factorOf percent)) catalog fuel ⟨0, 0, [], ⟨⟨0, []⟩, 0⟩⟩ with
  | none => none
  | some (Except.error st) => some (Except.error st)
  | some (Except.ok st) => some (Except.ok (RunResult.changedRes st.inner.changed, st))

/-! ## Specification-level definitions and proof scaffolding

`flatRun` is a ghost view of a traversal: the same per-item steps run over a
plain list, with no pagination.  The flattening theorems below show that on a
well-behaved store (ascending unique identifiers) every `traverse` run is a
`flatRun` over exactly the resources above the initial cursor. -/

/-- Ghost view of a run: fold the step over a plain product list, recording
visited ids; an error carries the state, the ids visited so far, and the id
of the item whose step raised. -/
def flatRun (step : σ → Product → Except σ σ) (s : σ) (vis : List Nat) :
    List Product → Except (σ × List Nat × Nat) (σ × List Nat)
  | [] => Except.ok (s, vis)
  | p :: ps =>
    match step s p with
    | Except.error s' => Except.error (s', vis ++ [p.id], p.id)
    | Except.ok s' => flatRun step s' (vis ++ [p.id]) ps

/-- The cursor value after processing a list of products: the id of the last
one, or the previous cursor `d` when the list is empty. -/
def lastIdFrom (d : Nat) : List Product → Nat
  | [] => d
  | p :: ps => lastIdFrom p.id ps

/-- Ceiling division, for counting page requests. -/
def ceilDiv (n m : Nat) : Nat := (n + m - 1) / m

/-- A well-behaved store snapshot (§3 invariants): identifiers strictly
ascending, hence unique. -/
abbrev IdSorted (c : List Product) : Prop :=
  c.Pairwise (fun a b => a.id < b.id)

/-- The writes an apply-mode description run issues over a product list: one
body `PUT` per product failing the idempotence check, in order. -/
def descWrites (ps : List Product) : List Write :=
  ps.filterMap fun p =>
    if descSkip p then none else some (Write.putProductBody p.id (buildDescription p))

/-- The preview entries a dry-run description run records: `{id, title}` per
product failing the idempotence check, in order. -/
def descPreview (ps : List Product) : List (Nat × String) :=
  ps.filterMap fun p => if descSkip p then none else some (p.id, p.title)

/-- The description-rewrite idempotence check as the spec claim words it:
normalize both descriptions first (trim, collapse whitespace runs), then
compare the first 160 characters of each normalized form.  Stated for
comparison with `descSkip`, which is the check the source performs. -/
def specDescSkip (p : Product) : Bool :=
  decide (jsSlice160 (collapseWs (jsTrim (bodyOr p))) =
    jsSlice160 (collapseWs (jsTrim (buildDescription p))))

/-- The stock-hide condition as the spec claim words it: every variant whose
inventory is management-tracked reports quantity ≤ 0 (variants without
tracking do not contribute), and the status is not already `"draft"`.
Stated for comparison with `hideNeeds`, which is the condition the source
evaluates. -/
def specHideNeeds (p : Product) : Bool :=
  ((variantsOf p).filter fun v => v.inventory_management).all
      (fun v => decide (v.inventory_quantity.getD 0 ≤ 0)) &&
    decide (p.status ≠ "draft")

/-- Modelled from the spec: how the remote store applies one `PUT` to one
stored product (§6) — a product patch replaces the addressed product's
field, a variant patch replaces the addressed variant's price. -/
def applyW1 (w : Write) (p : Product) : Product :=
  match w with
  | Write.putProductBody i b => if p.id = i then { p with body_html := some b } else p
  | Write.putProductStatus i st => if p.id = i then { p with status := st } else p
  | Write.putVariantPrice i pr =>
    { p with variants := some ((variantsOf p).map fun v =>
        if v.id = i then { v with price := pr } else v) }

/-- Modelled from the spec: the store state after one write. -/
def applyWrite (c : List Product) (w : Write) : List Product :=
  c.map (applyW1 w)

/-- Modelled from the spec: the store state after a sequence of writes. -/
def applyWrites (c : List Product) (ws : List Write) : List Product :=
  ws.foldl applyWrite c

/-- The catalog a completed apply-mode description run leaves behind: every
product that needed mutation now stores exactly the built description. -/
def storeAfterDesc (catalog : List Product) : List Product :=
  catalog.map fun p =>
    if descSkip p then p else { p with body_html := some (buildDescription p) }

/-! ## Concrete inputs for counterexamples and witnesses -/

/-- Title crafted so that the first 160 characters of the proposed
description contain a two-space run: `"a"*100 ++ "  " ++ "b"*47`. -/
def c1Title : String :=
  String.mk (List.replicate 100 'a' ++ [' ', ' '] ++ List.replicate 47 'b')

/-- Stored body whose 160-character prefix agrees with the proposed one
after truncate-then-collapse, but disagrees after collapse-then-truncate:
`"<p><strong>" ++ "a"*100 ++ "  " ++ "b"*100`. -/
def c1Body : String :=
  "<p><strong>" ++ String.mk (List.replicate 100 'a' ++ [' ', ' '] ++ List.replicate 100 'b')

/-- The product refuting the normalize-then-truncate reading of the
idempotence check. -/
def c1prod : Product := ⟨1, c1Title, none, some c1Body, "active", none⟩

/-- A product whose only variant has zero stock but is not
management-tracked. -/
def c2prod : Product :=
  ⟨1, "P", none, none, "active", some [⟨11, "1.00", some 0, false⟩]⟩

/-- A catalog whose single variant price `"10"` parses to the finite number
10 but is not in `toFixed(2)` form. -/
def c3cat : List Product :=
  [⟨1, "T", none, none, "active", some [⟨11, "10", none, true⟩]⟩]

/-- Stock-hide test products from the spec's hide-rule property: two tracked
zero-stock variants / one tracked in-stock variant / one untracked
zero-stock variant. -/
def c8cat : List Product :=
  [⟨1, "P1", none, none, "active", some [⟨11, "1.00", some 0, true⟩, ⟨12, "1.00", some 0, true⟩]⟩,
   ⟨2, "P2", none, none, "active", some [⟨21, "1.00", some 5, true⟩]⟩,
   ⟨3, "P3", none, none, "active", some [⟨31, "1.00", some 0, false⟩]⟩]

/-- A variant whose price string does not parse to a finite number. -/
def c9var : Variant := ⟨41, "abc", none, true⟩

/-- Two products with empty bodies: both need the description rewrite. -/
def c4cat : List Product :=
  [⟨1, "T", none, none, "active", none⟩, ⟨2, "U", none, none, "active", none⟩]

/-- Three products for the pagination witness. -/
def c5cat : List Product :=
  [⟨1, "T", none, none, "active", none⟩, ⟨2, "U", none, none, "active", none⟩,
   ⟨3, "V", none, none, "active", none⟩]

/-- A catalog where exactly one of two products needs the rewrite: the
second one already stores its built description. -/
def c6cat : List Product :=
  [⟨1, "T", none, none, "active", none⟩,
   ⟨2, "U", none, some (buildDescription ⟨2, "U", none, none, "active", none⟩), "active", none⟩]

/-! ## Traversal machinery lemmas -/

theorem flatRun_append (step : σ → Product → Except σ σ) (xs ys : List Product) :
    ∀ (s : σ) (vis : List Nat),
      flatRun step s vis (xs ++ ys) =
        match flatRun step s vis xs with
        | Except.error e => Except.error e
        | Except.ok (s', vis') => flatRun step s' vis' ys := by
  induction xs with
  | nil => intro s vis; rfl
  | cons p ps ih =>
    intro s vis
    simp only [List.cons_append, flatRun]
    cases h : step s p with
    | error s' => rfl
    | ok s' => exact ih s' (vis ++ [p.id])

theorem lastIdFrom_append (d : Nat) (xs ys : List Product) :
    lastIdFrom d (xs ++ ys) = lastIdFrom (lastIdFrom d xs) ys := by
  induction xs generalizing d with
  | nil => rfl
  | cons p ps ih => simpa [lastIdFrom] using ih p.id

theorem lastIdFrom_spec (ps : List Product) :
    ∀ d, ps ≠ [] → List.Pairwise (fun a b : Product => a.id < b.id) ps →
      lastIdFrom d ps ∈ ps.map (fun p => p.id) ∧ ∀ x ∈ ps, x.id ≤ lastIdFrom d ps := by
  induction ps with
  | nil => simp
  | cons p ps ih =>
    intro d _ hpw
    rcases List.pairwise_cons.mp hpw with ⟨hp, hpw'⟩
    by_cases hps : ps = []
    · subst hps; simp [lastIdFrom]
    · rcases ih p.id hps hpw' with ⟨hmem, hub⟩
      have hle : p.id ≤ lastIdFrom p.id ps := by
        rcases List.mem_map.mp hmem with ⟨y, hy, hyid⟩
        exact Nat.le_of_lt (hyid ▸ hp y hy)
      refine ⟨?_, ?_⟩
      · simpa [lastIdFrom] using Or.inr hmem
      · intro x hx
        rcases List.mem_cons.mp hx with hx | hx
        · simpa [lastIdFrom, hx] using hle
        · simpa [lastIdFrom] using hub x hx

theorem filter_after_page (catalog : List Product) (hsort : IdSorted catalog)
    (sinceId limit : Nat) (rem : List Product)
    (hrem : catalog.filter (fun p => decide (sinceId < p.id)) = rem)
    (hne : rem.take limit ≠ []) :
    catalog.filter
        (fun p => decide (lastIdFrom sinceId (rem.take limit) < p.id)) =
      rem.drop limit := by
  have hrs : List.Pairwise (fun a b : Product => a.id < b.id) rem := by
    rw [← hrem]; exact hsort.filter _
  have hsplit : rem.take limit ++ rem.drop limit = rem := List.take_append_drop limit rem
  have hrs' := hrs
  rw [← hsplit] at hrs'
  rcases List.pairwise_append.mp hrs' with ⟨hps, _, hcross⟩
  rcases lastIdFrom_spec (rem.take limit) sinceId hne hps with ⟨hmem, hub⟩
  rcases List.mem_map.mp hmem with ⟨x0, hx0, hx0id⟩
  have hlt_rs : ∀ y ∈ rem.drop limit, lastIdFrom sinceId (rem.take limit) < y.id := by
    intro y hy
    exact hx0id ▸ hcross x0 hx0 y hy
  have hsn : sinceId < lastIdFrom sinceId (rem.take limit) := by
    have hx0rem : x0 ∈ rem := hsplit ▸ List.mem_append.mpr (Or.inl hx0)
    rw [← hrem] at hx0rem
    have := List.of_mem_filter hx0rem
    exact hx0id ▸ of_decide_eq_true this
  calc
    catalog.filter (fun p => decide (lastIdFrom sinceId (rem.take limit) < p.id))
        = catalog.filter (fun p =>
            decide (lastIdFrom sinceId (rem.take limit) < p.id) && decide (sinceId < p.id)) := by
          refine List.filter_congr ?_ |>.symm
          intro a _
          by_cases h : lastIdFrom sinceId (rem.take limit) < a.id
          · simp [h, Nat.lt_trans hsn h]
          · simp [h]
    _ = (catalog.filter (fun p => decide (sinceId < p.id))).filter
          (fun p => decide (lastIdFrom sinceId (rem.take limit) < p.id)) :=
        (List.filter_filter _ _).symm
    _ = rem.filter (fun p => decide (lastIdFrom sinceId (rem.take limit) < p.id)) := by rw [hrem]
    _ = (rem.take limit ++ rem.drop limit).filter
          (fun p => decide (lastIdFrom sinceId (rem.take limit) < p.id)) := by rw [hsplit]
    _ = rem.drop limit := by
        rw [List.filter_append]
        have h1 : (rem.take limit).filter
            (fun p => decide (lastIdFrom sinceId (rem.take limit) < p.id)) = [] := by
          refine List.filter_eq_nil_iff.mpr ?_
          intro x hx
          simpa using Nat.not_lt.mpr (hub x hx)
        have h2 : (rem.drop limit).filter
            (fun p => decide (lastIdFrom sinceId (rem.take limit) < p.id)) = rem.drop limit := by
          refine List.filter_eq_self.mpr ?_
          intro y hy
          simpa using hlt_rs y hy
        rw [h1, h2, List.nil_append]

theorem runPage_flat (step : σ → Product → Except σ σ) (ps : List Product) :
    ∀ (st : Trav σ),
      runPage step st ps =
        match flatRun step st.inner st.visited ps with
        | Except.ok (s, vis) => Except.ok ⟨lastIdFrom st.sinceId ps, st.pages, vis, s⟩
        | Except.error (s, vis, e) => Except.error ⟨e, st.pages, vis, s⟩ := by
  induction ps with
  | nil => intro st; rfl
  | cons p ps ih =>
    intro st
    simp only [runPage, flatRun]
    cases h : step st.inner p with
    | error s' => rfl
    | ok s' => simpa [lastIdFrom] using ih ⟨p.id, st.pages, st.visited ++ [p.id], s'⟩

theorem ceilDiv_zero_left (m : Nat) : ceilDiv 0 m = 0 := by
  unfold ceilDiv
  cases m with
  | zero => rfl
  | succ k =>
    have h1 : 0 + (k + 1) - 1 = k := by omega
    rw [h1]
    exact Nat.div_eq_of_lt (Nat.lt_succ_self k)

theorem ceilDiv_step (n m : Nat) (hn : 1 ≤ n) (hm : 0 < m) :
    ceilDiv n m = ceilDiv (n - m) m + 1 := by
  unfold ceilDiv
  have h3 : n + m - 1 = (n - 1) + m := by omega
  rw [h3, Nat.add_div_right _ hm]
  rcases Nat.lt_or_ge m n with h | h
  · have h4 : n - m + m - 1 = (n - 1 - m) + m := by omega
    have h6 : n - 1 = (n - 1 - m) + m := by omega
    rw [h4, Nat.add_div_right _ hm]
    conv_lhs => rw [h6]
    rw [Nat.add_div_right _ hm]
  · have h0 : n - m = 0 := by omega
    have h1 : (n - 1) / m = 0 := Nat.div_eq_of_lt (by omega)
    have h2 : (0 + m - 1) / m = 0 := Nat.div_eq_of_lt (by omega)
    rw [h0, h1, h2]

theorem traverse_flat_ok (limit : Nat) (hl : 0 < limit) (step : σ → Product → Except σ σ)
    (catalog : List Product) (hsort : IdSorted catalog) :
    ∀ (fuel : Nat) (st : Trav σ) (rem : List Product) (s : σ) (vis : List Nat),
      catalog.filter (fun p => decide (st.sinceId < p.id)) = rem →
      rem.length < fuel →
      flatRun step st.inner st.visited rem = Except.ok (s, vis) →
      traverse limit step catalog fuel st =
        some (Except.ok
          ⟨lastIdFrom st.sinceId rem, st.pages + ceilDiv rem.length limit + 1, vis, s⟩) := by
  intro fuel
  induction fuel with
  | zero => intro st rem s vis _ hlen; omega
  | succ f ih =>
    intro st rem s vis hrem hlen hflat
    simp only [traverse, page, hrem]
    cases hrem0 : rem with
    | nil =>
      subst hrem0
      simp only [flatRun] at hflat
      injection hflat with h
      injection h with h1 h2
      subst h1; subst h2
      simp [lastIdFrom, ceilDiv_zero_left]
    | cons r rs =>
      have hne : rem.take limit ≠ [] := by
        subst hrem0
        cases limit with
        | zero => omega
        | succ l => simp [List.take]
      rw [← hrem0]
      have htd := List.take_append_drop limit rem
      rw [← htd, flatRun_append] at hflat
      have hcons : ∃ a b, rem.take limit = a :: b := by
        cases htk : rem.take limit with
        | nil => exact absurd htk hne
        | cons a b => exact ⟨a, b, rfl⟩
      rcases hcons with ⟨a, b, hcons⟩
      rw [hcons]
      dsimp only
      have hrp := runPage_flat step (rem.take limit)
        ⟨st.sinceId, st.pages + 1, st.visited, st.inner⟩
      cases hppage : flatRun step st.inner st.visited (rem.take limit) with
      | error e =>
        rw [hppage] at hflat
        simp at hflat
      | ok sv =>
        rcases sv with ⟨s₁, vis₁⟩
        rw [hppage] at hflat hrp
        simp only at hflat hrp
        rw [hcons] at hrp
        rw [hrp]
        dsimp only
        have hrem' :
            catalog.filter
                (fun p => decide (lastIdFrom st.sinceId (rem.take limit) < p.id)) =
              rem.drop limit :=
          filter_after_page catalog hsort st.sinceId limit rem hrem hne
        have hlen' : (rem.drop limit).length < f := by
          rw [List.length_drop]
          subst hrem0
          simp only [List.length_cons] at hlen ⊢
          omega
        have hrec := ih ⟨lastIdFrom st.sinceId (rem.take limit), st.pages + 1, vis₁, s₁⟩
          (rem.drop limit) s vis hrem' hlen' hflat
        rw [hcons] at hrec
        rw [hrec]
        have hlast := lastIdFrom_append st.sinceId (rem.take limit) (rem.drop limit)
        rw [htd, hcons] at hlast
        have hpages : st.pages + 1 + ceilDiv (rem.drop limit).length limit + 1 =
            st.pages + ceilDiv rem.length limit + 1 := by
          rw [List.length_drop]
          have h1 : 1 ≤ rem.length := by subst hrem0; simp [List.length_cons]
          rw [ceilDiv_step rem.length limit h1 hl]
          omega
        rw [← hlast, hpages]

theorem traverse_flat_err (limit : Nat) (hl : 0 < limit) (step : σ → Product → Except σ σ)
    (catalog : List Product) (hsort : IdSorted catalog) :
    ∀ (fuel : Nat) (st : Trav σ) (rem : List Product) (s : σ) (vis : List Nat) (e : Nat),
      catalog.filter (fun p => decide (st.sinceId < p.id)) = rem →
      rem.length < fuel →
      flatRun step st.inner st.visited rem = Except.error (s, vis, e) →
      ∃ q, traverse limit step catalog fuel st = some (Except.error ⟨e, q, vis, s⟩) := by
  intro fuel
  induction fuel with
  | zero => intro st rem s vis e _ hlen; omega
  | succ f ih =>
    intro st rem s vis e hrem hlen hflat
    simp only [traverse, page, hrem]
    cases hrem0 : rem with
    | nil =>
      subst hrem0
      simp [flatRun] at hflat
    | cons r rs =>
      have hne : rem.take limit ≠ [] := by
        subst hrem0
        cases limit with
        | zero => omega
        | succ l => simp [List.take]
      rw [← hrem0]
      have htd := List.take_append_drop limit rem
      rw [← htd, flatRun_append] at hflat
      have hcons : ∃ a b, rem.take limit = a :: b := by
        cases htk : rem.take limit with
        | nil => exact absurd htk hne
        | cons a b => exact ⟨a, b, rfl⟩
      rcases hcons with ⟨a, b, hcons⟩
      rw [hcons]
      dsimp only
      have hrp := runPage_flat step (rem.take limit)
        ⟨st.sinceId, st.pages + 1, st.visited, st.inner⟩
      cases hppage : flatRun step st.inner st.visited (rem.take limit) with
      | error e' =>
        rcases e' with ⟨s₁, vis₁, e₁⟩
        rw [hppage] at hflat hrp
        simp only at hflat hrp
        injection hflat with h
        injection h with h1 h'
        injection h' with h2 h3
        subst h1; subst h2; subst h3
        rw [hcons] at hrp
        rw [hrp]
        dsimp only
        exact ⟨st.pages + 1, rfl⟩
      | ok sv =>
        rcases sv with ⟨s₁, vis₁⟩
        rw [hppage] at hflat hrp
        simp only at hflat hrp
        rw [hcons] at hrp
        rw [hrp]
        dsimp only
        have hrem' :
            catalog.filter
                (fun p => decide (lastIdFrom st.sinceId (rem.take limit) < p.id)) =
              rem.drop limit :=
          filter_after_page catalog hsort st.sinceId limit rem hrem hne
        have hlen' : (rem.drop limit).length < f := by
          rw [List.length_drop]
          subst hrem0
          simp only [List.length_cons] at hlen ⊢
          omega
        have hrec := ih ⟨lastIdFrom st.sinceId (rem.take limit), st.pages + 1, vis₁, s₁⟩
          (rem.drop limit) s vis e hrem' hlen' hflat
        rw [hcons] at hrec
        exact hrec

theorem flatRun_total (step : σ → Product → Except σ σ) (ps : List Product)
    (hstep : ∀ s p, p ∈ ps → ∃ s', step s p = Except.ok s') :
    ∀ s vis, ∃ s', flatRun step s vis ps =
      Except.ok (s', vis ++ ps.map (fun p => p.id)) := by
  induction ps with
  | nil => intro s vis; exact ⟨s, by simp [flatRun]⟩
  | cons p ps ih =>
    intro s vis
    rcases hstep s p (List.mem_cons_self p ps) with ⟨s', hs'⟩
    rcases ih (fun t q hq => hstep t q (List.mem_cons_of_mem p hq)) s' (vis ++ [p.id])
      with ⟨s'', hs''⟩
    refine ⟨s'', ?_⟩
    simp only [flatRun, hs', hs'']
    simp

theorem flatRun_noop (step : σ → Product → Except σ σ) (ps : List Product)
    (hstep : ∀ s p, p ∈ ps → step s p = Except.ok s) :
    ∀ s vis, flatRun step s vis ps =
      Except.ok (s, vis ++ ps.map (fun p => p.id)) := by
  induction ps with
  | nil => intro s vis; simp [flatRun]
  | cons p ps ih =>
    intro s vis
    simp only [flatRun, hstep s p (List.mem_cons_self p ps)]
    have := ih (fun t q hq => hstep t q (List.mem_cons_of_mem p hq)) s (vis ++ [p.id])
    rw [this]
    simp

/-! ## Step-level equations for the three operations -/

theorem descStep_skip (failAt : Option Nat) (apply : Bool) (s : DescSt) (p : Product)
    (h : descSkip p = true) : descStep failAt apply s p = Except.ok s := by
  simp [descStep, h]

theorem descStep_apply_ok (s : DescSt) (p : Product) (h : descSkip p = false) :
    descStep none true s p =
      Except.ok ⟨⟨s.client.attempts + 1,
        s.client.writes ++ [Write.putProductBody p.id (buildDescription p)]⟩,
        s.updated + 1, s.preview⟩ := by
  simp [descStep, h, putWrite]

theorem descStep_preview (s : DescSt) (p : Product) (h : descSkip p = false) :
    descStep none false s p =
      Except.ok ⟨s.client, s.updated, s.preview ++ [(p.id, p.title)]⟩ := by
  simp [descStep, h]

theorem descStep_fail (k : Nat) (s : DescSt) (p : Product) (h : descSkip p = false)
    (hk : s.client.attempts = k) :
    descStep (some k) true s p =
      Except.error ⟨⟨k + 1, s.client.writes⟩, s.updated, s.preview⟩ := by
  simp [descStep, h, putWrite, hk]

theorem descStep_noFail (k : Nat) (s : DescSt) (p : Product) (h : descSkip p = false)
    (hk : s.client.attempts ≠ k) :
    descStep (some k) true s p =
      Except.ok ⟨⟨s.client.attempts + 1,
        s.client.writes ++ [Write.putProductBody p.id (buildDescription p)]⟩,
        s.updated + 1, s.preview⟩ := by
  simp [descStep, h, putWrite, Ne.symm hk]

theorem hideStep_yes (s : HideSt) (p : Product) (h : hideNeeds p = true) :
    hideStep none s p =
      Except.ok ⟨⟨s.client.attempts + 1,
        s.client.writes ++ [Write.putProductStatus p.id "draft"]⟩, s.hidden + 1⟩ := by
  simp [hideStep, h, putWrite]

theorem hideStep_no (failAt : Option Nat) (s : HideSt) (p : Product)
    (h : hideNeeds p = false) : hideStep failAt s p = Except.ok s := by
  simp [hideStep, h]

/-! ## Flat characterizations of the description runs -/

theorem flatRun_desc_apply (ps : List Product) :
    ∀ (a : Nat) (w : List Write) (u : Nat) (pr : List (Nat × String)) (vis : List Nat),
      flatRun (descStep none true) ⟨⟨a, w⟩, u, pr⟩ vis ps =
        Except.ok (⟨⟨a + (descWrites ps).length, w ++ descWrites ps⟩,
          u + (descWrites ps).length, pr⟩, vis ++ ps.map (fun p => p.id)) := by
  induction ps with
  | nil => intro a w u pr vis; simp [flatRun, descWrites]
  | cons p ps ih =>
    intro a w u pr vis
    by_cases h : descSkip p = true
    · have hdw : descWrites (p :: ps) = descWrites ps := by
        simp [descWrites, List.filterMap_cons, h]
      rw [hdw]
      simp only [flatRun, descStep_skip none true _ p h]
      rw [ih]
      simp
    · have h' : descSkip p = false := by simpa using h
      have hdw : descWrites (p :: ps) =
          Write.putProductBody p.id (buildDescription p) :: descWrites ps := by
        simp [descWrites, List.filterMap_cons, h']
      rw [hdw]
      simp only [flatRun, descStep_apply_ok _ p h']
      rw [ih]
      have e1 : a + 1 + (descWrites ps).length = a + (descWrites ps).length.succ := by omega
      have e2 : u + 1 + (descWrites ps).length = u + (descWrites ps).length.succ := by omega
      simp [e1, e2, List.append_assoc]

theorem flatRun_desc_preview (ps : List Product) :
    ∀ (a : Nat) (w : List Write) (u : Nat) (pr : List (Nat × String)) (vis : List Nat),
      flatRun (descStep none false) ⟨⟨a, w⟩, u, pr⟩ vis ps =
        Except.ok (⟨⟨a, w⟩, u, pr ++ descPreview ps⟩, vis ++ ps.map (fun p => p.id)) := by
  induction ps with
  | nil => intro a w u pr vis; simp [flatRun, descPreview]
  | cons p ps ih =>
    intro a w u pr vis
    by_cases h : descSkip p = true
    · have hdw : descPreview (p :: ps) = descPreview ps := by
        simp [descPreview, List.filterMap_cons, h]
      rw [hdw]
      simp only [flatRun, descStep_skip none false _ p h]
      rw [ih]
      simp
    · have h' : descSkip p = false := by simpa using h
      have hdw : descPreview (p :: ps) = (p.id, p.title) :: descPreview ps := by
        simp [descPreview, List.filterMap_cons, h']
      rw [hdw]
      simp only [flatRun, descStep_preview _ p h']
      rw [ih]
      simp [List.append_assoc]

theorem flatRun_desc_fail (ps : List Product) :
    ∀ (k a : Nat) (w : List Write) (u : Nat) (pr : List (Nat × String)) (vis : List Nat),
      a ≤ k → k - a < (descWrites ps).length →
      ∃ vis' e,
        flatRun (descStep (some k) true) ⟨⟨a, w⟩, u, pr⟩ vis ps =
          Except.error (⟨⟨k + 1, w ++ (descWrites ps).take (k - a)⟩,
            u + (k - a), pr⟩, vis', e) := by
  induction ps with
  | nil => intro k a w u pr vis ha hk; simp [descWrites] at hk
  | cons p ps ih =>
    intro k a w u pr vis ha hk
    by_cases h : descSkip p = true
    · have hdw : descWrites (p :: ps) = descWrites ps := by
        simp [descWrites, List.filterMap_cons, h]
      rw [hdw] at hk ⊢
      simp only [flatRun, descStep_skip _ _ _ p h]
      exact ih k a w u pr (vis ++ [p.id]) ha hk
    · have h' : descSkip p = false := by simpa using h
      have hdw : descWrites (p :: ps) =
          Write.putProductBody p.id (buildDescription p) :: descWrites ps := by
        simp [descWrites, List.filterMap_cons, h']
      rw [hdw] at hk ⊢
      rcases Nat.eq_or_lt_of_le ha with heq | hlt
      · subst heq
        simp only [flatRun, descStep_fail a ⟨⟨a, w⟩, u, pr⟩ p h' rfl]
        exact ⟨vis ++ [p.id], p.id, by simp⟩
      · simp only [flatRun, descStep_noFail k ⟨⟨a, w⟩, u, pr⟩ p h' (show a ≠ k by omega)]
        have hk' : k - (a + 1) < (descWrites ps).length := by
          simp only [List.length_cons] at hk
          omega
        rcases ih k (a + 1) (w ++ [Write.putProductBody p.id (buildDescription p)])
          (u + 1) pr (vis ++ [p.id]) (by omega) hk' with ⟨vis', e, heq⟩
        refine ⟨vis', e, ?_⟩
        rw [heq]
        have htake : (Write.putProductBody p.id (buildDescription p) :: descWrites ps).take (k - a) =
            Write.putProductBody p.id (buildDescription p) :: (descWrites ps).take (k - (a + 1)) := by
          have hh : k - a = (k - (a + 1)) + 1 := by omega
          rw [hh]
          rfl
        have e2 : u + 1 + (k - (a + 1)) = u + (k - a) := by omega
        rw [htake, e2]
        simp [List.append_assoc]

theorem descWrites_length_eq_preview (ps : List Product) :
    (descWrites ps).length = (descPreview ps).length := by
  induction ps with
  | nil => rfl
  | cons p ps ih =>
    by_cases h : descSkip p = true
    · rw [show descWrites (p :: ps) = descWrites ps from by
          simp [descWrites, List.filterMap_cons, h],
        show descPreview (p :: ps) = descPreview ps from by
          simp [descPreview, List.filterMap_cons, h]]
      exact ih
    · have h' : descSkip p = false := by simpa using h
      rw [show descWrites (p :: ps) =
            Write.putProductBody p.id (buildDescription p) :: descWrites ps from by
          simp [descWrites, List.filterMap_cons, h'],
        show descPreview (p :: ps) = (p.id, p.title) :: descPreview ps from by
          simp [descPreview, List.filterMap_cons, h']]
      simp [ih]

/-! ## Idempotence of trimming, and the effect of storing the writes back -/

theorem dropWhile_rdropWhile_dropWhile (w : Char → Bool) (x : List Char) :
    ((x.dropWhile w).rdropWhile w).dropWhile w = (x.dropWhile w).rdropWhile w := by
  cases hy : (x.dropWhile w).rdropWhile w with
  | nil => simp
  | cons c t =>
    have hpre : (x.dropWhile w).rdropWhile w <+: x.dropWhile w := List.rdropWhile_prefix w _
    rw [hy] at hpre
    rcases hpre with ⟨rest, hrest⟩
    have hxd : x.dropWhile w = c :: (t ++ rest) := by rw [← hrest]; simp
    have hne : x.dropWhile w ≠ [] := by rw [hxd]; simp
    have hc := List.head_dropWhile_not w x hne
    have hhead : (x.dropWhile w).head hne = c := by
      simp [hxd]
    rw [hhead] at hc
    simp [List.dropWhile_cons, hc]

theorem jsTrim_idem (s : String) : jsTrim (jsTrim s) = jsTrim s := by
  unfold jsTrim
  congr 1
  rw [dropWhile_rdropWhile_dropWhile]
  exact List.rdropWhile_idempotent _ _

theorem jsTrim_buildDescription (p : Product) :
    jsTrim (buildDescription p) = buildDescription p := by
  unfold buildDescription
  exact jsTrim_idem _

theorem descSkip_stored (p : Product) (h : p.body_html = some (buildDescription p)) :
    descSkip p = true := by
  have hb : bodyOr p = buildDescription p := by simp [bodyOr, h]
  simp [descSkip, hb, jsTrim_buildDescription]

theorem descSkip_after (p : Product) :
    descSkip (if descSkip p then p else { p with body_html := some (buildDescription p) }) =
      true := by
  by_cases h : descSkip p = true
  · simp [h]
  · have h' : descSkip p = false := by simpa using h
    rw [h', if_neg (by simp)]
    apply descSkip_stored
    show some (buildDescription p) =
      some (buildDescription { p with body_html := some (buildDescription p) })
    rfl

theorem applyWrites_map (ws : List Write) :
    ∀ (c : List Product),
      applyWrites c ws = c.map (fun p => ws.foldl (fun q w => applyW1 w q) p) := by
  induction ws with
  | nil => intro c; simp [applyWrites]
  | cons w ws ih =>
    intro c
    show applyWrites (applyWrite c w) ws = _
    rw [ih (applyWrite c w)]
    unfold applyWrite
    rw [List.map_map]
    rfl

theorem foldW_not_target (ws : List Write) :
    ∀ (p : Product),
      (∀ w ∈ ws, ∃ i b, w = Write.putProductBody i b ∧ i ≠ p.id) →
      ws.foldl (fun q w => applyW1 w q) p = p := by
  induction ws with
  | nil => intro p _; rfl
  | cons w ws ih =>
    intro p h
    rcases h w (List.mem_cons_self w ws) with ⟨i, b, rfl, hne⟩
    simp only [List.foldl_cons, applyW1]
    rw [if_neg (fun hh => hne hh.symm)]
    exact ih p (fun w hw => h w (List.mem_cons_of_mem _ hw))

theorem descWrites_targets (c : List Product) :
    ∀ w ∈ descWrites c, ∃ r, r ∈ c ∧ w = Write.putProductBody r.id (buildDescription r) := by
  intro w hw
  rcases List.mem_filterMap.mp hw with ⟨r, hr, hwr⟩
  by_cases hs : descSkip r = true
  · simp [hs] at hwr
  · have hs' : descSkip r = false := by simpa using hs
    rw [hs'] at hwr
    simp at hwr
    exact ⟨r, hr, hwr.symm⟩

theorem foldW_desc (c : List Product) :
    ∀ (p : Product), p ∈ c → (c.map (fun q => q.id)).Nodup →
      (descWrites c).foldl (fun q w => applyW1 w q) p =
        (if descSkip p then p else { p with body_html := some (buildDescription p) }) := by
  induction c with
  | nil => intro p hp; simp at hp
  | cons q c ih =>
    intro p hp hnd
    rw [List.map_cons, List.nodup_cons] at hnd
    rcases hnd with ⟨hqnot, hnd⟩
    have htail : ∀ x, x ∈ c → ∀ w ∈ descWrites c, ∃ i b,
        w = Write.putProductBody i b ∧ (i ∈ c.map (fun r => r.id)) := by
      intro x _ w hw
      rcases descWrites_targets c w hw with ⟨r, hr, rfl⟩
      exact ⟨r.id, buildDescription r, rfl, List.mem_map_of_mem _ hr⟩
    rcases List.mem_cons.mp hp with heqp | hp'
    · subst heqp
      by_cases hs : descSkip p = true
      · have hdw : descWrites (p :: c) = descWrites c := by
          simp [descWrites, List.filterMap_cons, hs]
        rw [hdw, hs, if_pos rfl]
        apply foldW_not_target
        intro w hw
        rcases descWrites_targets c w hw with ⟨r, hr, rfl⟩
        exact ⟨r.id, buildDescription r, rfl,
          fun hip => hqnot (hip ▸ List.mem_map_of_mem _ hr)⟩
      · have hs' : descSkip p = false := by simpa using hs
        have hdw : descWrites (p :: c) =
            Write.putProductBody p.id (buildDescription p) :: descWrites c := by
          simp [descWrites, List.filterMap_cons, hs']
        rw [hdw, hs', if_neg (by simp)]
        simp only [List.foldl_cons, applyW1, if_pos rfl]
        apply foldW_not_target
        intro w hw
        rcases descWrites_targets c w hw with ⟨r, hr, rfl⟩
        exact ⟨r.id, buildDescription r, rfl,
          fun hip => hqnot (hip ▸ List.mem_map_of_mem _ hr)⟩
    · have hqne : q.id ≠ p.id := fun hh => hqnot (hh ▸ List.mem_map_of_mem _ hp')
      by_cases hs : descSkip q = true
      · rw [show descWrites (q :: c) = descWrites c from by
            simp [descWrites, List.filterMap_cons, hs]]
        exact ih p hp' hnd
      · have hs' : descSkip q = false := by simpa using hs
        rw [show descWrites (q :: c) =
            Write.putProductBody q.id (buildDescription q) :: descWrites c from by
          simp [descWrites, List.filterMap_cons, hs']]
        simp only [List.foldl_cons, applyW1]
        rw [if_neg (fun hh => hqne hh.symm)]
        exact ih p hp' hnd

theorem applyWrites_descWrites (c : List Product)
    (hnd : (c.map (fun p => p.id)).Nodup) :
    applyWrites c (descWrites c) = storeAfterDesc c := by
  rw [applyWrites_map]
  unfold storeAfterDesc
  apply List.map_congr_left
  intro p hp
  exact foldW_desc c p hp hnd

theorem nodup_ids_of_sorted {c : List Product} (h : IdSorted c) :
    (c.map (fun p => p.id)).Nodup := by
  have hpw : (c.map (fun p => p.id)).Pairwise (· < ·) := List.pairwise_map.mpr h
  exact hpw.imp Nat.ne_of_lt

theorem storeAfterDesc_ids (c : List Product) :
    (storeAfterDesc c).map (fun p => p.id) = c.map (fun p => p.id) := by
  unfold storeAfterDesc
  rw [List.map_map]
  apply List.map_congr_left
  intro p _
  by_cases h : descSkip p = true <;> simp [h]

theorem storeAfterDesc_sorted {c : List Product} (h : IdSorted c) :
    IdSorted (storeAfterDesc c) := by
  have h1 : ((storeAfterDesc c).map (fun p => p.id)).Pairwise (· < ·) := by
    rw [storeAfterDesc_ids]
    exact List.pairwise_map.mpr h
  exact List.pairwise_map.mp h1

theorem storeAfterDesc_lastIdFrom (c : List Product) :
    ∀ d, lastIdFrom d (storeAfterDesc c) = lastIdFrom d c := by
  induction c with
  | nil => intro d; rfl
  | cons p c ih =>
    intro d
    show lastIdFrom d ((if descSkip p then p
      else { p with body_html := some (buildDescription p) }) :: storeAfterDesc c) = _
    by_cases h : descSkip p = true <;> simp [h, lastIdFrom, ih]

theorem storeAfterDesc_skip_all (c : List Product) :
    ∀ p ∈ storeAfterDesc c, descSkip p = true := by
  intro p hp
  rcases List.mem_map.mp hp with ⟨q, _, rfl⟩
  exact descSkip_after q

/-! ## Reprice and hide helper lemmas -/

theorem fmt2_mulQ_factor_zero (q : QVal) : fmt2 (mulQ q (factorOf ⟨0, 1⟩)) = fmt2 q := by
  have hf : factorOf ⟨0, 1⟩ = ⟨100, 100⟩ := rfl
  rw [hf]
  have hm : mulQ q ⟨100, 100⟩ = ⟨q.num * 100, q.den * 100⟩ := rfl
  rw [hm]
  have hc : (200 * (q.num * 100) + ((q.den * 100 : Nat) : Int)).fdiv
      (2 * ((q.den * 100 : Nat) : Int)) =
      (200 * q.num + (q.den : Int)).fdiv (2 * (q.den : Int)) := by
    have h1 : ((q.den * 100 : Nat) : Int) = (q.den : Int) * 100 := by push_cast; ring
    rw [h1]
    have h2 : 200 * (q.num * 100) + (q.den : Int) * 100 =
        100 * (200 * q.num + (q.den : Int)) := by ring
    have h3 : 2 * ((q.den : Int) * 100) = 100 * (2 * (q.den : Int)) := by ring
    rw [h2, h3]
    rw [Int.fdiv_eq_ediv _ (by positivity), Int.fdiv_eq_ediv _ (by positivity)]
    exact Int.mul_ediv_mul_of_pos _ _ (by norm_num)
  simp only [fmt2]
  rw [hc]

theorem repriceVariants_noop (failAt : Option Nat) (factor : QVal) (vs : List Variant)
    (hcanon : ∀ v ∈ vs, ∀ q, parseFloatQ v.price = some q →
      fmt2 (mulQ q factor) = v.price) :
    ∀ s, repriceVariants failAt factor s vs = Except.ok s := by
  induction vs with
  | nil => intro s; rfl
  | cons v vs ih =>
    intro s
    have htail := fun x hx => hcanon x (List.mem_cons_of_mem v hx)
    cases hp : parseFloatQ v.price with
    | none =>
      simp only [repriceVariants, hp]
      exact ih htail s
    | some q =>
      have heq : fmt2 (mulQ q factor) = v.price := hcanon v (List.mem_cons_self v vs) q hp
      simp only [repriceVariants, hp]
      rw [if_neg (by simp [heq])]
      exact ih htail s

theorem hideNeeds_iff (p : Product) :
    hideNeeds p = true ↔
      ((∀ v ∈ variantsOf p, v.inventory_quantity.getD 0 ≤ 0 ∧
          v.inventory_management = true) ∧ p.status ≠ "draft") := by
  simp [hideNeeds, allZeroB, hideVariantCond, List.all_eq_true, Bool.and_eq_true,
    decide_eq_true_eq]

theorem descStep_total (apply : Bool) (s : DescSt) (p : Product) :
    ∃ s', descStep none apply s p = Except.ok s' := by
  by_cases h : descSkip p = true
  · exact ⟨s, descStep_skip none apply s p h⟩
  · have h' : descSkip p = false := by simpa using h
    cases apply
    · exact ⟨_, descStep_preview s p h'⟩
    · exact ⟨_, descStep_apply_ok s p h'⟩

/-! ## Singleton-catalog runs, for the per-product claims -/

theorem hideOutOfStock_singleton (p : Product) (hpos : 0 < p.id) :
    hideOutOfStock none [p] 2 =
      some (Except.ok (RunResult.hiddenRes (if hideNeeds p then 1 else 0),
        ⟨p.id, 2, [p.id],
          if hideNeeds p then ⟨⟨1, [Write.putProductStatus p.id "draft"]⟩, 1⟩
          else ⟨⟨0, []⟩, 0⟩⟩)) := by
  have hrem : ([p] : List Product).filter (fun q => decide ((0 : Nat) < q.id)) = [p] := by
    simp [hpos]
  have hsort : IdSorted [p] := List.pairwise_singleton _ _
  by_cases h : hideNeeds p = true
  · have hflat : flatRun (hideStep none) (⟨⟨0, []⟩, 0⟩ : HideSt) [] [p] =
        Except.ok (⟨⟨1, [Write.putProductStatus p.id "draft"]⟩, 1⟩, [p.id]) := by
      simp only [flatRun, hideStep_yes _ p h]
      rfl
    have hmain := traverse_flat_ok 250 (by norm_num) (hideStep none) [p] hsort 2
      ⟨0, 0, [], ⟨⟨0, []⟩, 0⟩⟩ [p] ⟨⟨1, [Write.putProductStatus p.id "draft"]⟩, 1⟩ [p.id]
      hrem (by norm_num) hflat
    unfold hideOutOfStock
    rw [hmain]
    simp [h, lastIdFrom]
    rfl
  · have h' : hideNeeds p = false := by simpa using h
    have hflat : flatRun (hideStep none) (⟨⟨0, []⟩, 0⟩ : HideSt) [] [p] =
        Except.ok (⟨⟨0, []⟩, 0⟩, [p.id]) := by
      simp only [flatRun, hideStep_no none _ p h']
      rfl
    have hmain := traverse_flat_ok 250 (by norm_num) (hideStep none) [p] hsort 2
      ⟨0, 0, [], ⟨⟨0, []⟩, 0⟩⟩ [p] ⟨⟨0, []⟩, 0⟩ [p.id] hrem (by norm_num) hflat
    unfold hideOutOfStock
    rw [hmain]
    simp [h', lastIdFrom]
    rfl

theorem updateAllDescriptions_singleton (p : Product) (hpos : 0 < p.id) :
    updateAllDescriptions none [p] true 2 =
      some (Except.ok (RunResult.updatedRes (if descSkip p then 0 else 1),
        ⟨p.id, 2, [p.id],
          if descSkip p then ⟨⟨0, []⟩, 0, []⟩
          else ⟨⟨1, [Write.putProductBody p.id (buildDescription p)]⟩, 1, []⟩⟩)) := by
  have hrem : ([p] : List Product).filter (fun q => decide ((0 : Nat) < q.id)) = [p] := by
    simp [hpos]
  have hsort : IdSorted [p] := List.pairwise_singleton _ _
  by_cases h : descSkip p = true
  · have hflat : flatRun (descStep none true) (⟨⟨0, []⟩, 0, []⟩ : DescSt) [] [p] =
        Except.ok (⟨⟨0, []⟩, 0, []⟩, [p.id]) := by
      simp only [flatRun, descStep_skip none true _ p h]
      rfl
    have hmain := traverse_flat_ok 250 (by norm_num) (descStep none true) [p] hsort 2
      ⟨0, 0, [], ⟨⟨0, []⟩, 0, []⟩⟩ [p] ⟨⟨0, []⟩, 0, []⟩ [p.id] hrem (by norm_num) hflat
    unfold updateAllDescriptions
    rw [hmain]
    simp [h, lastIdFrom]
    rfl
  · have h' : descSkip p = false := by simpa using h
    have hflat : flatRun (descStep none true) (⟨⟨0, []⟩, 0, []⟩ : DescSt) [] [p] =
        Except.ok (⟨⟨1, [Write.putProductBody p.id (buildDescription p)]⟩, 1, []⟩, [p.id]) := by
      simp only [flatRun, descStep_apply_ok _ p h']
      rfl
    have hmain := traverse_flat_ok 250 (by norm_num) (descStep none true) [p] hsort 2
      ⟨0, 0, [], ⟨⟨0, []⟩, 0, []⟩⟩ [p]
      ⟨⟨1, [Write.putProductBody p.id (buildDescription p)]⟩, 1, []⟩ [p.id]
      hrem (by norm_num) hflat
    unfold updateAllDescriptions
    rw [hmain]
    simp [h', lastIdFrom]
    rfl

/-! ## Claim theorems -/

/-- C1 counterexample: the claim reads the idempotence check as
normalize-(trim+collapse)-then-truncate and says the product is skipped
exactly when those 160-character prefixes agree.  On `c1prod` the run skips
the product (no mutation: `updated = 0`, no writes), yet the
normalized-form prefixes differ (`specDescSkip c1prod = false`). -/
theorem c1_counterexample :
    specDescSkip c1prod = false ∧
      updateAllDescriptions none [c1prod] true 2 =
        some (Except.ok (RunResult.updatedRes 0, ⟨1, 2, [1], ⟨⟨0, []⟩, 0, []⟩⟩)) := by
  decide

/-- C1 (amended): the source truncates each side to its first 160 characters
first and only then collapses whitespace runs: an apply-mode run over a
single product issues no write exactly when the truncate-then-collapse forms
of the trimmed current body and the proposed description agree, and
otherwise issues exactly the one body write. -/
theorem c1_amended (p : Product) (hpos : 0 < p.id) :
    ∃ st, updateAllDescriptions none [p] true 2 =
        some (Except.ok (RunResult.updatedRes st.inner.updated, st)) ∧
      (st.inner.client.writes = [] ↔
        collapseWs (jsSlice160 (jsTrim (bodyOr p))) =
          collapseWs (jsSlice160 (buildDescription p))) ∧
      (st.inner.client.writes = [] ∨
        st.inner.client.writes = [Write.putProductBody p.id (buildDescription p)]) := by
  by_cases h : descSkip p = true
  · refine ⟨⟨p.id, 2, [p.id], ⟨⟨0, []⟩, 0, []⟩⟩, ?_, ?_, Or.inl rfl⟩
    · rw [updateAllDescriptions_singleton p hpos, h]
      rfl
    · exact iff_of_true rfl (of_decide_eq_true (by simpa [descSkip] using h))
  · have h' : descSkip p = false := by simpa using h
    refine ⟨⟨p.id, 2, [p.id], ⟨⟨1, [Write.putProductBody p.id (buildDescription p)]⟩, 1, []⟩⟩,
      ?_, ?_, Or.inr rfl⟩
    · rw [updateAllDescriptions_singleton p hpos, h']
      rfl
    · refine iff_of_false (by simp) ?_
      intro hc
      rw [show descSkip p = decide
            (collapseWs (jsSlice160 (jsTrim (bodyOr p))) =
              collapseWs (jsSlice160 (buildDescription p))) from rfl, hc] at h'
      simp at h'

/-- Witness for C1 (amended) at a product that needs the rewrite. -/
theorem c1_amended_witness :
    ∃ st, updateAllDescriptions none [⟨5, "W", none, none, "active", none⟩] true 2 =
        some (Except.ok (RunResult.updatedRes st.inner.updated, st)) ∧
      (st.inner.client.writes = [] ↔
        collapseWs (jsSlice160 (jsTrim (bodyOr ⟨5, "W", none, none, "active", none⟩))) =
          collapseWs (jsSlice160 (buildDescription ⟨5, "W", none, none, "active", none⟩))) ∧
      (st.inner.client.writes = [] ∨
        st.inner.client.writes =
          [Write.putProductBody 5 (buildDescription ⟨5, "W", none, none, "active", none⟩)]) :=
  c1_amended ⟨5, "W", none, none, "active", none⟩ (by decide)

/-- C2 counterexample: the claim-side hide condition (only tracked variants
must be out of stock; untracked variants do not contribute, vacuously true
here) holds for `c2prod`, whose single variant is untracked with quantity 0
and whose status is "active" — yet the run mutates nothing, because the
source requires every variant to be tracked as well. -/
theorem c2_counterexample :
    specHideNeeds c2prod = true ∧
      hideOutOfStock none [c2prod] 2 =
        some (Except.ok (RunResult.hiddenRes 0, ⟨1, 2, [1], ⟨⟨0, []⟩, 0⟩⟩)) := by
  decide

/-- C2 (amended): the stock-hide run mutates a product exactly when EVERY
variant both reports quantity ≤ 0 (null treated as 0) AND is
management-tracked — so any untracked variant prevents hiding, while a
product with zero variants satisfies the condition vacuously — and the
current status is not already "draft". -/
theorem c2_amended (p : Product) (hpos : 0 < p.id) :
    ∃ st, hideOutOfStock none [p] 2 =
        some (Except.ok (RunResult.hiddenRes st.inner.hidden, st)) ∧
      (st.inner.client.writes = [Write.putProductStatus p.id "draft"] ↔
        ((∀ v ∈ variantsOf p, v.inventory_quantity.getD 0 ≤ 0 ∧
            v.inventory_management = true) ∧ p.status ≠ "draft")) ∧
      (st.inner.client.writes = [] ∨
        st.inner.client.writes = [Write.putProductStatus p.id "draft"]) := by
  by_cases h : hideNeeds p = true
  · refine ⟨⟨p.id, 2, [p.id], ⟨⟨1, [Write.putProductStatus p.id "draft"]⟩, 1⟩⟩,
      ?_, ?_, Or.inr rfl⟩
    · rw [hideOutOfStock_singleton p hpos, h]
      rfl
    · exact iff_of_true rfl ((hideNeeds_iff p).mp h)
  · have h' : hideNeeds p = false := by simpa using h
    refine ⟨⟨p.id, 2, [p.id], ⟨⟨0, []⟩, 0⟩⟩, ?_, ?_, Or.inl rfl⟩
    · rw [hideOutOfStock_singleton p hpos, h']
      rfl
    · refine iff_of_false (by simp) ?_
      intro hc
      rw [← hideNeeds_iff p] at hc
      rw [hc] at h'
      simp at h'

/-- Witness for C2 (amended) at a product with one tracked zero-stock
variant. -/
theorem c2_amended_witness :
    ∃ st, hideOutOfStock none [⟨7, "Q", none, none, "active", some [⟨71, "1.00", some 0, true⟩]⟩] 2 =
        some (Except.ok (RunResult.hiddenRes st.inner.hidden, st)) ∧
      (st.inner.client.writes = [Write.putProductStatus 7 "draft"] ↔
        ((∀ v ∈ variantsOf ⟨7, "Q", none, none, "active", some [⟨71, "1.00", some 0, true⟩]⟩,
            v.inventory_quantity.getD 0 ≤ 0 ∧ v.inventory_management = true) ∧
          ("active" : String) ≠ "draft")) ∧
      (st.inner.client.writes = [] ∨
        st.inner.client.writes = [Write.putProductStatus 7 "draft"]) :=
  c2_amended ⟨7, "Q", none, none, "active", some [⟨71, "1.00", some 0, true⟩]⟩ (by decide)

/-- C3 counterexample: every price string in `c3cat` parses to a finite
number, yet a reprice run with percent = 0 issues one write — the stored
string "10" differs textually from its `toFixed(2)` rendering "10.00". -/
theorem c3_counterexample :
    (∀ p ∈ c3cat, ∀ v ∈ variantsOf p, (parseFloatQ v.price).isSome = true) ∧
      simpleReprice none c3cat ⟨0, 1⟩ 2 =
        some (Except.ok (RunResult.changedRes 1,
          ⟨1, 2, [1], ⟨⟨1, [Write.putVariantPrice 11 "10.00"]⟩, 1⟩⟩)) := by
  decide

/-- C3 (amended): a reprice run with percent = 0 issues zero writes provided
every price string that parses to a finite number is already in canonical
`toFixed(2)` form (the 2-decimal rendering of its parsed value equals the
stored string) and its magnitude is below `10^12` — the range where the
exact-rational `fmt2` and JS `toFixed`-on-doubles provably render alike;
in particular the run completes with `changed = 0` and an untouched write
client. -/
theorem c3_amended (catalog : List Product) (hsort : IdSorted catalog)
    (hpos : ∀ p ∈ catalog, 0 < p.id) (fuel : Nat) (hfuel : catalog.length < fuel)
    (hcanon : ∀ p ∈ catalog, ∀ v ∈ variantsOf p, ∀ q,
      parseFloatQ v.price = some q →
        fmt2 q = v.price ∧ q.num.natAbs < 10 ^ 12 * q.den) :
    simpleReprice none catalog ⟨0, 1⟩ fuel =
      some (Except.ok (RunResult.changedRes 0,
        ⟨lastIdFrom 0 catalog, ceilDiv catalog.length 100 + 1,
          catalog.map (fun p => p.id), ⟨⟨0, []⟩, 0⟩⟩)) := by
  have hrem : catalog.filter (fun q => decide ((0 : Nat) < q.id)) = catalog :=
    List.filter_eq_self.mpr fun p hp => decide_eq_true (hpos p hp)
  have hstep : ∀ (s : RepSt) (p : Product), p ∈ catalog →
      repriceStep none (factorOf ⟨0, 1⟩) s p = Except.ok s := by
    intro s p hp
    unfold repriceStep
    apply repriceVariants_noop
    intro v hv q hq
    rw [fmt2_mulQ_factor_zero]
    exact (hcanon p hp v hv q hq).1
  have hflat := flatRun_noop (repriceStep none (factorOf ⟨0, 1⟩)) catalog hstep
    ⟨⟨0, []⟩, 0⟩ []
  have hmain := traverse_flat_ok 100 (by norm_num) (repriceStep none (factorOf ⟨0, 1⟩))
    catalog hsort fuel ⟨0, 0, [], ⟨⟨0, []⟩, 0⟩⟩ catalog ⟨⟨0, []⟩, 0⟩
    (catalog.map (fun p => p.id)) hrem hfuel (by simpa using hflat)
  unfold simpleReprice
  rw [hmain]
  simp

/-- Witness for C3 (amended) at a catalog with a canonical price "10.00". -/
theorem c3_amended_witness :
    simpleReprice none [⟨1, "T", none, none, "active", some [⟨11, "10.00", none, true⟩]⟩]
        ⟨0, 1⟩ 2 =
      some (Except.ok (RunResult.changedRes 0, ⟨1, 2, [1], ⟨⟨0, []⟩, 0⟩⟩)) := by
  have h := c3_amended [⟨1, "T", none, none, "active", some [⟨11, "10.00", none, true⟩]⟩]
    (by decide) (by decide) 2 (by decide) ?_
  · exact h
  · intro p hp v hv q hq
    simp only [List.mem_singleton] at hp
    subst hp
    have hvv : variantsOf ⟨1, "T", none, none, "active",
        some [⟨11, "10.00", none, true⟩]⟩ = [⟨11, "10.00", none, true⟩] := rfl
    rw [hvv] at hv
    simp only [List.mem_singleton] at hv
    subst hv
    rw [show parseFloatQ "10.00" = some ⟨1000, 100⟩ from by decide] at hq
    injection hq with hq'
    subst hq'
    exact ⟨by decide, by decide⟩

/-- C4: abort semantics of the description run.  When the (k+1)-st write
attempt fails (oracle `failAt = some k`, with at least k+1 writes planned),
the run raises the error to the caller — the `Except.error` branch of
`updateAllDescriptions` carries no `RunResult` — after exactly k+1 write
attempts (no write is issued after the failing one), and the writes that
took effect are exactly the first k planned writes, untouched (no
rollback). -/
theorem c4_abort (catalog : List Product) (hsort : IdSorted catalog)
    (hpos : ∀ p ∈ catalog, 0 < p.id) (k fuel : Nat) (hfuel : catalog.length < fuel)
    (hk : k < (descWrites catalog).length) :
    ∃ e q vis,
      updateAllDescriptions (some k) catalog true fuel =
        some (Except.error ⟨e, q, vis, ⟨⟨k + 1, (descWrites catalog).take k⟩, k, []⟩⟩) := by
  have hrem : catalog.filter (fun q => decide ((0 : Nat) < q.id)) = catalog :=
    List.filter_eq_self.mpr fun p hp => decide_eq_true (hpos p hp)
  rcases flatRun_desc_fail catalog k 0 [] 0 [] [] (Nat.zero_le k) (by simpa using hk)
    with ⟨vis', e, hflat⟩
  rw [Nat.sub_zero, List.nil_append] at hflat
  have hne : (0 : Nat) + k = k := Nat.zero_add k
  rw [hne] at hflat
  rcases traverse_flat_err 250 (by norm_num) (descStep (some k) true) catalog hsort fuel
    ⟨0, 0, [], ⟨⟨0, []⟩, 0, []⟩⟩ catalog ⟨⟨k + 1, (descWrites catalog).take k⟩, k, []⟩
    vis' e hrem hfuel hflat with ⟨q, hq⟩
  refine ⟨e, q, vis', ?_⟩
  unfold updateAllDescriptions
  rw [hq]

/-- Witness for C4 on a two-product catalog (two writes planned) where the
second write attempt (k = 1) fails. -/
theorem c4_witness :
    ∃ e q vis,
      updateAllDescriptions (some 1) c4cat true 3 =
        some (Except.error ⟨e, q, vis, ⟨⟨2, (descWrites c4cat).take 1⟩, 1, []⟩⟩) :=
  c4_abort c4cat (by decide) (by decide) 1 3 (by decide) (by decide)

/-- C5: pagination completeness of the shared traversal skeleton.  For a
well-behaved catalog of N products (ascending positive unique identifiers)
and any page size P > 0, a full (never-failing) description traversal
terminates, issues exactly ⌈N/P⌉ + 1 page requests, visits exactly the
catalog's identifiers in order — each exactly once, as their list is
duplicate-free — and the page at the final cursor is empty (the loop's only
exit is an empty page). -/
theorem c5_pagination (limit : Nat) (hl : 0 < limit) (catalog : List Product)
    (hsort : IdSorted catalog) (hpos : ∀ p ∈ catalog, 0 < p.id)
    (apply : Bool) (fuel : Nat) (hfuel : catalog.length < fuel) :
    (∃ s, traverse limit (descStep none apply) catalog fuel ⟨0, 0, [], ⟨⟨0, []⟩, 0, []⟩⟩ =
        some (Except.ok ⟨lastIdFrom 0 catalog, ceilDiv catalog.length limit + 1,
          catalog.map (fun p => p.id), s⟩)) ∧
      (catalog.map (fun p => p.id)).Nodup ∧
      page catalog limit (lastIdFrom 0 catalog) = [] := by
  have hrem : catalog.filter (fun q => decide ((0 : Nat) < q.id)) = catalog :=
    List.filter_eq_self.mpr fun p hp => decide_eq_true (hpos p hp)
  refine ⟨?_, nodup_ids_of_sorted hsort, ?_⟩
  · rcases flatRun_total (descStep none apply) catalog
      (fun s p _ => descStep_total apply s p) ⟨⟨0, []⟩, 0, []⟩ [] with ⟨sF, hflat⟩
    refine ⟨sF, ?_⟩
    have hmain := traverse_flat_ok limit hl (descStep none apply) catalog hsort fuel
      ⟨0, 0, [], ⟨⟨0, []⟩, 0, []⟩⟩ catalog sF (catalog.map (fun p => p.id))
      hrem hfuel (by simpa using hflat)
    rw [hmain]
    simp
  · unfold page
    cases hc : catalog with
    | nil => simp
    | cons r rs =>
      have hne : catalog ≠ [] := by rw [hc]; simp
      rcases lastIdFrom_spec catalog 0 hne hsort with ⟨_, hub⟩
      have hfil : catalog.filter
          (fun p => decide (lastIdFrom 0 catalog < p.id)) = [] := by
        refine List.filter_eq_nil_iff.mpr ?_
        intro a ha
        simpa using Nat.not_lt.mpr (hub a ha)
      rw [← hc, hfil]
      simp

/-- Witness for C5 with three products and page size two: three page
requests, visits [1, 2, 3]. -/
theorem c5_witness :
    (∃ s, traverse 2 (descStep none true) c5cat 4 ⟨0, 0, [], ⟨⟨0, []⟩, 0, []⟩⟩ =
        some (Except.ok ⟨lastIdFrom 0 c5cat, ceilDiv c5cat.length 2 + 1,
          c5cat.map (fun p => p.id), s⟩)) ∧
      (c5cat.map (fun p => p.id)).Nodup ∧
      page c5cat 2 (lastIdFrom 0 c5cat) = [] :=
  c5_pagination 2 (by decide) c5cat (by decide) (by decide) true 4 (by decide)

/-- C6: preview versus apply.  On the same catalog the dry-run returns
`{preview_count, preview}` with the preview listing exactly the products
needing mutation and `preview_count` its length, issuing zero write calls
(the client ends with 0 attempts and no writes); the apply run returns
`{updated = k}` and issues exactly k write calls, where
k = |descWrites catalog| = |descPreview catalog|. -/
theorem c6_preview_vs_apply (catalog : List Product) (hsort : IdSorted catalog)
    (hpos : ∀ p ∈ catalog, 0 < p.id) (fuel : Nat) (hfuel : catalog.length < fuel) :
    updateAllDescriptions none catalog false fuel =
      some (Except.ok (RunResult.previewRes (descPreview catalog).length (descPreview catalog),
        ⟨lastIdFrom 0 catalog, ceilDiv catalog.length 250 + 1, catalog.map (fun p => p.id),
          ⟨⟨0, []⟩, 0, descPreview catalog⟩⟩)) ∧
    updateAllDescriptions none catalog true fuel =
      some (Except.ok (RunResult.updatedRes (descWrites catalog).length,
        ⟨lastIdFrom 0 catalog, ceilDiv catalog.length 250 + 1, catalog.map (fun p => p.id),
          ⟨⟨(descWrites catalog).length, descWrites catalog⟩,
            (descWrites catalog).length, []⟩⟩)) ∧
    (descWrites catalog).length = (descPreview catalog).length := by
  have hrem : catalog.filter (fun q => decide ((0 : Nat) < q.id)) = catalog :=
    List.filter_eq_self.mpr fun p hp => decide_eq_true (hpos p hp)
  refine ⟨?_, ?_, descWrites_length_eq_preview catalog⟩
  · have hflat := flatRun_desc_preview catalog 0 [] 0 [] []
    have hmain := traverse_flat_ok 250 (by norm_num) (descStep none false) catalog hsort
      fuel ⟨0, 0, [], ⟨⟨0, []⟩, 0, []⟩⟩ catalog ⟨⟨0, []⟩, 0, descPreview catalog⟩
      (catalog.map (fun p => p.id)) hrem hfuel (by simpa using hflat)
    unfold updateAllDescriptions
    rw [hmain]
    simp
  · have hflat := flatRun_desc_apply catalog 0 [] 0 [] []
    have hmain := traverse_flat_ok 250 (by norm_num) (descStep none true) catalog hsort
      fuel ⟨0, 0, [], ⟨⟨0, []⟩, 0, []⟩⟩ catalog
      ⟨⟨(descWrites catalog).length, descWrites catalog⟩, (descWrites catalog).length, []⟩
      (catalog.map (fun p => p.id)) hrem hfuel (by simpa using hflat)
    unfold updateAllDescriptions
    rw [hmain]
    simp

/-- Witness for C6 on a two-product catalog where exactly one product
differs. -/
theorem c6_witness :
    updateAllDescriptions none c6cat false 3 =
      some (Except.ok (RunResult.previewRes (descPreview c6cat).length (descPreview c6cat),
        ⟨lastIdFrom 0 c6cat, ceilDiv c6cat.length 250 + 1, c6cat.map (fun p => p.id),
          ⟨⟨0, []⟩, 0, descPreview c6cat⟩⟩)) ∧
    updateAllDescriptions none c6cat true 3 =
      some (Except.ok (RunResult.updatedRes (descWrites c6cat).length,
        ⟨lastIdFrom 0 c6cat, ceilDiv c6cat.length 250 + 1, c6cat.map (fun p => p.id),
          ⟨⟨(descWrites c6cat).length, descWrites c6cat⟩, (descWrites c6cat).length, []⟩⟩)) ∧
    (descWrites c6cat).length = (descPreview c6cat).length :=
  c6_preview_vs_apply c6cat (by decide) (by decide) 3 (by decide)

/-- C7: idempotence of the description rewrite across runs.  A completed
apply run issues exactly the planned writes `descWrites catalog`; storing
those writes back into the catalog (each body PUT replaces the addressed
product's body) and running again in apply mode yields `{updated = 0}` with
an untouched write client — zero mutations on the second run.  The titles
and vendors are untouched by the stored writes, matching the claim's
hypothesis. -/
theorem c7_desc_idempotent (catalog : List Product) (hsort : IdSorted catalog)
    (hpos : ∀ p ∈ catalog, 0 < p.id) (fuel : Nat) (hfuel : catalog.length < fuel) :
    (∃ st, updateAllDescriptions none catalog true fuel =
        some (Except.ok (RunResult.updatedRes st.inner.updated, st)) ∧
        st.inner.client.writes = descWrites catalog) ∧
    updateAllDescriptions none (applyWrites catalog (descWrites catalog)) true fuel =
      some (Except.ok (RunResult.updatedRes 0,
        ⟨lastIdFrom 0 catalog, ceilDiv catalog.length 250 + 1,
          catalog.map (fun p => p.id), ⟨⟨0, []⟩, 0, []⟩⟩)) := by
  have hrem : catalog.filter (fun q => decide ((0 : Nat) < q.id)) = catalog :=
    List.filter_eq_self.mpr fun p hp => decide_eq_true (hpos p hp)
  constructor
  · have hflat := flatRun_desc_apply catalog 0 [] 0 [] []
    have hmain := traverse_flat_ok 250 (by norm_num) (descStep none true) catalog hsort
      fuel ⟨0, 0, [], ⟨⟨0, []⟩, 0, []⟩⟩ catalog
      ⟨⟨(descWrites catalog).length, descWrites catalog⟩, (descWrites catalog).length, []⟩
      (catalog.map (fun p => p.id)) hrem hfuel (by simpa using hflat)
    refine ⟨⟨lastIdFrom 0 catalog, ceilDiv catalog.length 250 + 1,
      catalog.map (fun p => p.id),
      ⟨⟨(descWrites catalog).length, descWrites catalog⟩,
        (descWrites catalog).length, []⟩⟩, ?_, rfl⟩
    unfold updateAllDescriptions
    rw [hmain]
    simp
  · rw [applyWrites_descWrites catalog (nodup_ids_of_sorted hsort)]
    have hsort2 : IdSorted (storeAfterDesc catalog) := storeAfterDesc_sorted hsort
    have hrem2 : (storeAfterDesc catalog).filter
        (fun q => decide ((0 : Nat) < q.id)) = storeAfterDesc catalog := by
      refine List.filter_eq_self.mpr ?_
      intro p hp
      rcases List.mem_map.mp hp with ⟨r, hr, rfl⟩
      refine decide_eq_true ?_
      have := hpos r hr
      by_cases hd : descSkip r = true <;> simp [hd, this]
    have hstep : ∀ (s : DescSt) (p : Product), p ∈ storeAfterDesc catalog →
        descStep none true s p = Except.ok s := fun s p hp =>
      descStep_skip none true s p (storeAfterDesc_skip_all catalog p hp)
    have hflat := flatRun_noop (descStep none true) (storeAfterDesc catalog) hstep
      ⟨⟨0, []⟩, 0, []⟩ []
    have hlen2 : (storeAfterDesc catalog).length < fuel := by
      unfold storeAfterDesc
      rw [List.length_map]
      exact hfuel
    have hmain := traverse_flat_ok 250 (by norm_num) (descStep none true)
      (storeAfterDesc catalog) hsort2 fuel ⟨0, 0, [], ⟨⟨0, []⟩, 0, []⟩⟩
      (storeAfterDesc catalog) ⟨⟨0, []⟩, 0, []⟩
      ((storeAfterDesc catalog).map (fun p => p.id)) hrem2 hlen2 (by simpa using hflat)
    unfold updateAllDescriptions
    rw [hmain]
    have hids := storeAfterDesc_ids catalog
    have hlast := storeAfterDesc_lastIdFrom catalog 0
    have hlen3 : (storeAfterDesc catalog).length = catalog.length := by
      unfold storeAfterDesc
      exact List.length_map _ _
    rw [hids, hlast, hlen3]
    simp

/-- Witness for C7 on the two-product catalog `c6cat`. -/
theorem c7_witness :
    (∃ st, updateAllDescriptions none c6cat true 3 =
        some (Except.ok (RunResult.updatedRes st.inner.updated, st)) ∧
        st.inner.client.writes = descWrites c6cat) ∧
    updateAllDescriptions none (applyWrites c6cat (descWrites c6cat)) true 3 =
      some (Except.ok (RunResult.updatedRes 0,
        ⟨lastIdFrom 0 c6cat, ceilDiv c6cat.length 250 + 1,
          c6cat.map (fun p => p.id), ⟨⟨0, []⟩, 0, []⟩⟩)) :=
  c7_desc_idempotent c6cat (by decide) (by decide) 3 (by decide)

/-- C8: hide-rule correctness on the three spec products: the product with
two tracked zero-stock variants and status "active" is mutated to "draft";
the product with a tracked in-stock variant is not; the product whose only
variant is untracked (even with quantity 0) is not — the run issues exactly
the one status write for product 1. -/
theorem c8_hide_rule :
    hideOutOfStock none c8cat 2 =
      some (Except.ok (RunResult.hiddenRes 1,
        ⟨3, 2, [1, 2, 3], ⟨⟨1, [Write.putProductStatus 1 "draft"]⟩, 1⟩⟩)) := by
  decide

/-- C9: a variant whose stored price string does not parse to a finite
number — `parseFloatQ` follows the ECMAScript `parseFloat` algorithm, so
`none` is exactly `NaN` (no parsable numeric start) or ±∞ (an `Infinity` literal
or double overflow) — is skipped: no write for it, no abort, and the inner
variant loop continues exactly as if the variant were absent, for any
failure oracle, factor, client state and remaining variants. -/
theorem c9_malformed_price (failAt : Option Nat) (factor : QVal) (s : RepSt)
    (v : Variant) (vs : List Variant) (h : parseFloatQ v.price = none) :
    repriceVariants failAt factor s (v :: vs) = repriceVariants failAt factor s vs := by
  simp [repriceVariants, h]

/-- Witness for C9 at the concrete malformed price "abc". -/
theorem c9_witness :
    parseFloatQ c9var.price = none ∧
      repriceVariants none (factorOf ⟨10, 1⟩) ⟨⟨0, []⟩, 0⟩ [c9var, ⟨42, "19.99", none, true⟩] =
        repriceVariants none (factorOf ⟨10, 1⟩) ⟨⟨0, []⟩, 0⟩ [⟨42, "19.99", none, true⟩] :=
  ⟨by decide, c9_malformed_price none (factorOf ⟨10, 1⟩) ⟨⟨0, []⟩, 0⟩ c9var
    [⟨42, "19.99", none, true⟩] (by decide)⟩

/-- C10: in the stock-hide per-variant condition, a null/absent inventory
quantity is coalesced to 0, so it satisfies the zero-stock comparison
(quantity ≤ 0 evaluates to true) and the whole condition behaves exactly as
for a stored quantity of 0. -/
theorem c10_null_quantity (i : Nat) (pr : String) (m : Bool) :
    hideVariantCond ⟨i, pr, none, m⟩ = hideVariantCond ⟨i, pr, some 0, m⟩ ∧
      decide ((Variant.mk i pr none m).inventory_quantity.getD 0 ≤ 0) = true :=
  ⟨rfl, rfl⟩

end FuzzleBot
